import Mathlib

/-!
# FileManager — verification of the synchronized file store core

Shallow embedding of the core subsystem of the FileManager repository
(`src/fileManager.js`, schemas in `src/unnamed/part_000`): the backup
vault (`createBackup` / `revertFile`), the mutating file operations
(`appendToFile`, `overwriteFile`), the encryption codec
(`AdvancedOps.encrypt` / `AdvancedOps.decrypt`, AES-256-CTR with a
16-byte IV prepended to the ciphertext), the path resolver
(`utils.resolve`, a `path.join` against the base directory), and the
metadata index together with the sync engine (`dbOps.syncToDB`,
`dbHelper.ensureFolderDoc`) and the consistency auditor
(`dbOps.cleanDB`).

Filesystem state is modelled as a map from logical names to optional
contents; the metadata index as lists of folder and file records with a
counter minting fresh ids (Mongo object ids are abstracted to naturals);
the CTR-mode block cipher keystream is an abstract parameter and bytes
are naturals combined with `xor`.
-/

/-- A store mapping logical filenames to optional contents. Models the
sandboxed directory (or the flat backup area) of the source: `none`
means the file does not exist. -/
def Store (α : Type) := String → Option α

/-- Point update of a store: models a single file write or deletion. -/
def Store.set {α : Type} (m : Store α) (k : String) (v : Option α) : Store α :=
  fun x => if x = k then v else m x

/-- Filesystem state: the live files under the base directory and the
flat backup area (`backups/<filename>.bak`, keyed here by the logical
filename since the `.bak` suffixing is a bijective renaming). -/
structure FState (α : Type) where
  files : Store α
  backups : Store α

theorem Store.set_same {α : Type} (m : Store α) (k : String) (v : Option α) :
    m.set k v k = v := by
  simp [Store.set]

theorem Store.set_other {α : Type} (m : Store α) (k x : String) (v : Option α)
    (h : x ≠ k) : m.set k v x = m x := by
  simp [Store.set, h]

/-- `createBackup` (fileManager.js lines 905-921): if the source file
exists, copy its current bytes over the backup location (overwriting any
prior backup); if it does not exist, or on any error, do nothing. -/
def createBackup (filename : String) (s : FState String) : FState String :=
  match s.files filename with
  | some c => { s with backups := s.backups.set filename (some c) }
  | none => s

/-- `appendToFile` (fileManager.js lines 976-986): create a backup, then
append a newline followed by the content (`fs.appendFile(path, "\n" +
content)`); `fs.appendFile` creates the file when it is missing. -/
def appendToFile (filename content : String) (s : FState String) : FState String :=
  let s1 := createBackup filename s
  { s1 with
    files := s1.files.set filename (some ((s1.files filename).getD "" ++ "\n" ++ content)) }

/-- `overwriteFile` (fileManager.js lines 1136-1148): require the file
to exist (`fs.access`), create a backup, then rewrite the content. On a
missing file the error is reported and the state is unchanged. -/
def overwriteFile (filename newContent : String) (s : FState String) : FState String :=
  match s.files filename with
  | none => s
  | some _ =>
    let s1 := createBackup filename s
    { s1 with files := s1.files.set filename (some newContent) }

/-- `revertFile` (fileManager.js lines 1240-1260): if a backup exists,
copy it back over the live file; otherwise report "no backup" and leave
the state unchanged. It does not itself create a backup. -/
def revertFile (filename : String) (s : FState String) : FState String :=
  match s.backups filename with
  | some b => { s with files := s.files.set filename (some b) }
  | none => s

/-- C2: for every file with content `c1`, after a mutating edit to `c2`
(which invokes the backup helper before mutating), one revert restores
exactly `c1`, and a second revert with no intervening mutation restores
`c1` again — revert never overwrites the backup itself. -/
theorem backup_revert_roundtrip (n c1 c2 : String) (s : FState String)
    (h : s.files n = some c1) :
    (revertFile n (overwriteFile n c2 s)).files n = some c1 ∧
    (revertFile n (revertFile n (overwriteFile n c2 s))).files n = some c1 := by
  simp only [overwriteFile, createBackup, revertFile, h]
  simp [Store.set]

/-- Witness for C2 at a concrete state. -/
theorem backup_revert_roundtrip_wit :
    (let s0 : FState String :=
      ⟨fun x => if x = "story.txt" then some "v1" else none, fun _ => none⟩
     (revertFile "story.txt" (overwriteFile "story.txt" "v2" s0)).files "story.txt"
        = some "v1" ∧
     (revertFile "story.txt"
        (revertFile "story.txt" (overwriteFile "story.txt" "v2" s0))).files "story.txt"
        = some "v1") :=
  backup_revert_roundtrip "story.txt" "v1" "v2" _ (by simp)

/-- C10: the append operation writes a newline character followed by the
content to the end of the file, so appending `c` to a file whose content
is `x` always yields `x ++ "\n" ++ c`. -/
theorem append_writes_newline_prefix (n c x : String) (s : FState String)
    (h : s.files n = some x) :
    (appendToFile n c s).files n = some (x ++ "\n" ++ c) := by
  simp only [appendToFile, createBackup, h]
  simp [Store.set, h]

/-- Witness for C10 at a concrete state. -/
theorem append_writes_newline_prefix_wit :
    (let s0 : FState String :=
      ⟨fun x => if x = "log.txt" then some "hello" else none, fun _ => none⟩
     (appendToFile "log.txt" "world" s0).files "log.txt" = some ("hello" ++ "\n" ++ "world")) :=
  append_writes_newline_prefix "log.txt" "world" "hello" _ (by simp)

/-! ## Encryption codec (`AdvancedOps.encrypt` / `AdvancedOps.decrypt`) -/

/-- One CTR-mode pass (`aes-256-ctr` via `crypto.createCipheriv` /
`createDecipheriv`): byte `i` of the output is byte `i` of the input
xor-ed with keystream byte `i`. The AES keystream itself lives in the
crypto library, so it is abstracted to a function of the counter
position; encryption and decryption are the same pass. Bytes are
naturals (xor preserves the byte range). -/
def ctrCrypt (ks : Nat → Nat) : List Nat → Nat → List Nat
  | [], _ => []
  | b :: bs, i => (b ^^^ ks i) :: ctrCrypt ks bs (i + 1)

/-- `AdvancedOps.encrypt`, byte level (fileManager.js lines 647-656):
generate the envelope `IV || cipher(plaintext, key, IV)`. `ks iv` is the
keystream the cipher derives from the shared key and the IV. -/
def encryptBytes (ks : List Nat → Nat → Nat) (iv input : List Nat) : List Nat :=
  iv ++ ctrCrypt (ks iv) input 0

/-- `AdvancedOps.decrypt`, byte level (fileManager.js lines 658-669):
split the first 16 bytes as IV and decipher the remainder with the
shared key. -/
def decryptBytes (ks : List Nat → Nat → Nat) (data : List Nat) : List Nat :=
  ctrCrypt (ks (data.take 16)) (data.drop 16) 0

/-- Error outcomes reported by the wrapped operations. -/
inductive FMErr : Type where
  | notFound : FMErr
  | notEncrypted : FMErr
deriving DecidableEq, Repr

/-- `AdvancedOps.encrypt`, file level (fileManager.js lines 647-656):
read the plaintext (failing if the file is missing — there is no check
of the filename for the `.enc` marker), write the envelope to
`<name>.enc`, then delete the original. -/
def encryptFile (ks : List Nat → Nat → Nat) (iv : List Nat) (filename : String)
    (s : FState (List Nat)) : Except FMErr (FState (List Nat)) :=
  match s.files filename with
  | none => .error .notFound
  | some input =>
    .ok { s with
          files := (s.files.set (filename ++ ".enc")
                      (some (encryptBytes ks iv input))).set filename none }

/-- JavaScript `String.prototype.replace` with a string pattern and an
empty replacement: remove the first (leftmost) occurrence of the
pattern; if the pattern does not occur, return the string unchanged.
Used by `decrypt` as `filePath.replace(".enc", "")`. -/
def replaceFirst : List Char → List Char → List Char
  | [], _ => []
  | c :: cs, pat =>
    if pat.isPrefixOf (c :: cs) then (c :: cs).drop pat.length
    else c :: replaceFirst cs pat

/-- String version of `replaceFirst` (empty replacement). -/
def jsReplaceEmpty (s pat : String) : String :=
  ⟨replaceFirst s.toList pat.toList⟩

/-- `AdvancedOps.decrypt`, file level (fileManager.js lines 658-669):
require the `.enc` suffix (`filename.endsWith(".enc")`, else throw),
read the envelope, decipher, write the plaintext to
`filePath.replace(".enc", "")` — the input name with the *first*
occurrence of `".enc"` removed — and delete the envelope after the
plaintext write. -/
def decryptFile (ks : List Nat → Nat → Nat) (filename : String)
    (s : FState (List Nat)) : Except FMErr (FState (List Nat)) :=
  if ".enc".toList <:+ filename.toList then
    match s.files filename with
    | none => .error .notFound
    | some data =>
      .ok { s with
            files := (s.files.set (jsReplaceEmpty filename ".enc")
                        (some (decryptBytes ks data))).set filename none }
  else .error .notEncrypted

theorem ctrCrypt_involutive (ks : Nat → Nat) (bs : List Nat) (i : Nat) :
    ctrCrypt ks (ctrCrypt ks bs i) i = bs := by
  induction bs generalizing i with
  | nil => simp [ctrCrypt]
  | cons b bs ih => simp [ctrCrypt, Nat.xor_cancel_right, ih]

/-- C1: for every byte content `b`, encrypting and then decrypting the
resulting envelope reproduces exactly `b`; and two encrypt invocations
with the fresh 16-byte IVs they drew (fresh draws being modelled as
distinct values) produce unequal envelope bytes, since the IV is
prepended to the ciphertext. -/
theorem encrypt_decrypt_roundtrip (ks : List Nat → Nat → Nat)
    (iv iv' b b' : List Nat) (h16 : iv.length = 16) (h16' : iv'.length = 16)
    (hne : iv ≠ iv') :
    decryptBytes ks (encryptBytes ks iv b) = b ∧
    encryptBytes ks iv b ≠ encryptBytes ks iv' b' := by
  constructor
  · simp [decryptBytes, encryptBytes, List.take_append_of_le_length, h16,
      List.drop_append_of_le_length, ctrCrypt_involutive]
  · intro h
    apply hne
    have := congrArg (List.take 16) h
    simpa [encryptBytes, List.take_append_of_le_length, h16, h16'] using this

theorem replaceFirst_length_lt (pat : List Char) (hp : pat ≠ []) :
    ∀ cs : List Char, pat <:+ cs → (replaceFirst cs pat).length < cs.length := by
  intro cs
  induction cs with
  | nil => intro h; exact absurd (List.suffix_nil.mp h) hp
  | cons c cs ih =>
    intro h
    by_cases hpre : pat.isPrefixOf (c :: cs)
    · simp only [replaceFirst, hpre, if_pos]
      have hle : 0 < pat.length := List.length_pos.mpr hp
      simp only [List.length_drop, List.length_cons]
      omega
    · simp only [replaceFirst, hpre, if_neg, not_false_iff, List.length_cons]
      rcases List.suffix_cons_iff.mp h with h1 | h1
      · exact absurd (by rw [h1]; exact List.isPrefixOf_iff_prefix.mpr List.prefix_rfl) hpre
      · exact Nat.succ_lt_succ (ih h1)

theorem jsReplaceEmpty_ne (n : String) (h : ".enc".toList <:+ n.toList) :
    jsReplaceEmpty n ".enc" ≠ n := by
  intro he
  have h1 : (jsReplaceEmpty n ".enc").toList = n.toList := by rw [he]
  have h2 : (jsReplaceEmpty n ".enc").toList = replaceFirst n.toList ".enc".toList := rfl
  have := replaceFirst_length_lt ".enc".toList (by decide) n.toList h
  rw [← h2, h1] at this
  omega

/-- C6 counterexample: `encrypt` invoked on the filename `"a.enc"`
(which bears the marker suffix) does not fail — there is no
`AlreadyEncrypted` check in the code — and produces a doubly-encrypted
envelope at `"a.enc.enc"`. -/
theorem encrypt_already_encrypted_cex :
    (match encryptFile (fun _ _ => 0) (List.replicate 16 0) "a.enc"
        ⟨fun x => if x = "a.enc" then some [5] else none, fun _ => none⟩ with
     | .ok s1 => s1.files "a.enc.enc"
          = some (encryptBytes (fun _ _ => 0) (List.replicate 16 0) [5])
     | .error _ => False) := by
  simp only [encryptFile]
  norm_num [Store.set]
  decide

/-- C6 amended: `encrypt` performs no filename-marker check at all: for
every filename already bearing the `.enc` suffix whose file exists, the
invocation succeeds, writing a second-level envelope to
`filename ++ ".enc"` and deleting the input file. -/
theorem encrypt_no_marker_check (ks : List Nat → Nat → Nat) (iv b : List Nat)
    (n : String) (s : FState (List Nat))
    (_hn : ".enc".toList <:+ n.toList) (h : s.files n = some b) :
    (match encryptFile ks iv n s with
     | .ok s1 => s1.files (n ++ ".enc") = some (encryptBytes ks iv b) ∧ s1.files n = none
     | .error _ => False) := by
  have hne : n ++ ".enc" ≠ n := by
    intro he
    have := congrArg String.length he
    simp only [String.length_append] at this
    rw [show (".enc" : String).length = 4 from rfl] at this
    omega
  simp only [encryptFile, h]
  exact ⟨by rw [Store.set_other _ _ _ _ hne, Store.set_same], by rw [Store.set_same]⟩

/-- Witness for the C6 amended theorem at a concrete state. -/
theorem encrypt_no_marker_check_wit :
    (match encryptFile (fun _ _ => 1) [0] "b.enc"
        ⟨fun x => if x = "b.enc" then some [7] else none, fun _ => none⟩ with
     | .ok s1 => s1.files ("b.enc" ++ ".enc") = some (encryptBytes (fun _ _ => 1) [0] [7]) ∧
                 s1.files "b.enc" = none
     | .error _ => False) :=
  encrypt_no_marker_check (fun _ _ => 1) [0] [7] "b.enc" _ (by decide) (by simp)

/-- C9 counterexample: `decrypt` on the envelope name `"a.encb.enc"`
writes the plaintext to `"ab.enc"` — the name with the *first*
occurrence of `".enc"` removed (`filePath.replace(".enc", "")`) — and
not to `"a.encb"`, the input name with the marker suffix removed from
its end as the claim states. -/
theorem decrypt_replace_first_cex :
    (match decryptFile (fun _ _ => 0) "a.encb.enc"
        ⟨fun x => if x = "a.encb.enc" then some (List.replicate 20 0) else none,
         fun _ => none⟩ with
     | .ok s1 => s1.files "a.encb" = none ∧
          s1.files "ab.enc"
            = some (decryptBytes (fun _ _ => 0) (List.replicate 20 0))
     | .error _ => False) := by
  have : jsReplaceEmpty "a.encb.enc" ".enc" = "ab.enc" := by decide
  simp only [decryptFile]
  rw [if_pos (by decide)]
  norm_num [Store.set, this]
  decide

/-- C9 amended: `decrypt` on a filename without the marker suffix fails
with `NotEncrypted`; on a marked envelope it takes the first 16 bytes as
IV, deciphers the remainder with the shared key, writes the plaintext to
the input name with the *first* occurrence of `".enc"` removed (which
coincides with removing the marker suffix from the end exactly when no
earlier `".enc"` occurs in the name), and deletes the envelope only
after the plaintext write. -/
theorem decrypt_behavior (ks : List Nat → Nat → Nat) (n : String) (d : List Nat)
    (s : FState (List Nat)) :
    (¬ ".enc".toList <:+ n.toList → decryptFile ks n s = .error .notEncrypted) ∧
    (".enc".toList <:+ n.toList → s.files n = some d →
      match decryptFile ks n s with
      | .ok s1 => s1.files (jsReplaceEmpty n ".enc")
            = some (ctrCrypt (ks (d.take 16)) (d.drop 16) 0) ∧
          s1.files n = none
      | .error _ => False) := by
  constructor
  · intro hn
    simp only [decryptFile, if_neg hn]
  · intro hn h
    simp only [decryptFile, if_pos hn, h]
    refine ⟨?_, by rw [Store.set_same]⟩
    rw [Store.set_other _ _ _ _ (jsReplaceEmpty_ne n hn), Store.set_same]
    rfl

/-- Witness for the C9 amended theorem at a concrete envelope. -/
theorem decrypt_behavior_wit :
    ((¬ ".enc".toList <:+ "plain.txt".toList →
        decryptFile (fun _ _ => 0) "plain.txt"
          ⟨fun _ => none, fun _ => none⟩ = .error .notEncrypted) ∧
     (".enc".toList <:+ "plain.txt".toList →
        (⟨fun _ => none, fun _ => none⟩ : FState (List Nat)).files "plain.txt"
          = some (List.replicate 17 3) →
        match decryptFile (fun _ _ => 0) "plain.txt"
            (⟨fun _ => none, fun _ => none⟩ : FState (List Nat)) with
        | .ok s1 => s1.files (jsReplaceEmpty "plain.txt" ".enc")
              = some (ctrCrypt ((fun _ _ => 0) ((List.replicate 17 3).take 16))
                        ((List.replicate 17 3).drop 16) 0) ∧
            s1.files "plain.txt" = none
        | .error _ => False)) :=
  decrypt_behavior (fun _ _ => 0) "plain.txt" (List.replicate 17 3) _

/-! ## Path resolver (`utils.resolve`, fileManager.js lines 34-43, 378-381, 901-902) -/

/-- One step of Node's `path.normalize` over an absolute path's segment
stack: empty and `"."` segments are dropped, `".."` pops the previous
segment (and at the root is simply discarded, as `path.join` does for an
absolute base), any other segment is pushed. -/
def normStep (stack : List String) (seg : String) : List String :=
  if seg = "" ∨ seg = "." then stack
  else if seg = ".." then stack.dropLast
  else stack ++ [seg]

/-- Node `path.join(base, name)` on segment lists for an absolute
`base`: concatenate the parts and normalize. This is all
`utils.resolve` does — `path.join(CONFIG.baseDir, filename)` — with no
validation of the logical name. -/
def joinSegs (base name : List String) : List String :=
  (base ++ name).foldl normStep []

/-- A segment list with no special segments (the configured base
directory is such a path). -/
def NormalSegs (l : List String) : Prop :=
  ∀ s ∈ l, s ≠ "" ∧ s ≠ "." ∧ s ≠ ".."

instance (l : List String) : Decidable (NormalSegs l) := by
  unfold NormalSegs; infer_instance

theorem foldl_normStep_normal (l : List String) (hl : NormalSegs l) :
    ∀ st : List String, l.foldl normStep st = st ++ l := by
  induction l with
  | nil => simp
  | cons s l ih =>
    intro st
    have hs := hl s (by simp)
    have hl' : NormalSegs l := fun t ht => hl t (by simp [ht])
    simp only [List.foldl_cons, normStep, hs.1, hs.2.1, hs.2.2, or_self, if_false,
      if_neg, ih hl']
    simp [hs.1, hs.2.1, hs.2.2]

theorem foldl_normStep_keeps_base (base : List String) :
    ∀ (name st : List String), base <+: st → (∀ s ∈ name, s ≠ "..") →
      base <+: name.foldl normStep st := by
  intro name
  induction name with
  | nil => intro st h _; simpa using h
  | cons s l ih =>
    intro st h hn
    have hs : s ≠ ".." := hn s (by simp)
    have hn' : ∀ t ∈ l, t ≠ ".." := fun t ht => hn t (by simp [ht])
    by_cases hd : s = "" ∨ s = "."
    · simp only [List.foldl_cons, normStep, hd, if_pos]
      exact ih st h hn'
    · simp only [List.foldl_cons, normStep, hd, if_false, hs, if_neg, not_false_iff]
      exact ih (st ++ [s]) (h.trans (List.prefix_append st [s])) hn'

/-- C5 counterexample: the logical name `"../../secret"` escapes the
sandboxed root, yet the resolver does not fail with `InvalidPath`: it is
total and returns the absolute path `<parent-of-parent-of-base>/secret`,
which does not lie under the base directory. -/
theorem resolve_traversal_escape_cex :
    joinSegs ["home", "user", "app", "my_files"] ["..", "..", "secret"]
        = ["home", "user", "secret"] ∧
    ¬ ["home", "user", "app", "my_files"] <+:
        joinSegs ["home", "user", "app", "my_files"] ["..", "..", "secret"] := by
  constructor
  · decide
  · decide

/-- C5 amended: `utils.resolve` is a pure function of the configuration
(a bare `path.join` of the base directory and the logical name) with no
side effects and no validation: it never fails with `InvalidPath`; a
name whose traversal segments escape the root resolves to an absolute
path outside the root, while every name free of `".."` segments resolves
to a path under the base directory. -/
theorem resolve_pure_no_reject (base name : List String)
    (hb : NormalSegs base) (hn : ∀ s ∈ name, s ≠ "..") :
    base <+: joinSegs base name := by
  unfold joinSegs
  rw [List.foldl_append, foldl_normStep_normal base hb]
  exact foldl_normStep_keeps_base base name (base) (by simp) hn

/-- Witness for the C5 amended theorem at a concrete configuration. -/
theorem resolve_pure_no_reject_wit :
    NormalSegs ["home", "user", "app", "my_files"] ∧
    (∀ s ∈ ["docs", "notes.txt"], s ≠ "..") ∧
    ["home", "user", "app", "my_files"] <+:
      joinSegs ["home", "user", "app", "my_files"] ["docs", "notes.txt"] :=
  ⟨by decide, by decide,
   resolve_pure_no_reject _ _ (by decide) (by decide)⟩

/-! ## Metadata index (`FileModel` / `FolderModel`, src/unnamed/part_000)

The single `CONFIG.ownerId` every operation uses is dropped from the
record keys; Mongo object ids are modelled by naturals minted from a
counter carried in the index state. -/

/-- `FolderRecord` (folderSchema): `{ _id, name, owner, parentFolder }`
with `owner` constant. -/
structure FolderRec where
  id : Nat
  name : String
  parent : Option Nat
deriving DecidableEq, Repr

/-- `FileRecord` (fileSchema): `{ _id, owner, parentFolder, filename,
storageKey, extension, size, mimetype, fileData, isEncrypted }` with
`owner` constant. -/
structure FileRec where
  id : Nat
  name : String
  parent : Option Nat
  storageKey : String
  size : Nat
  ext : String
  mime : String
  fileData : Option (List Nat)
  isEncrypted : Bool
deriving DecidableEq, Repr

/-- The metadata index: the two collections plus the id-minting counter. -/
structure DB where
  folders : List FolderRec
  files : List FileRec
  next : Nat
deriving DecidableEq, Repr

def emptyDB : DB := ⟨[], [], 0⟩

/-- The query `{ filename, owner, parentFolder }` on the file collection. -/
def fileKeyMatch (n : String) (p : Option Nat) (r : FileRec) : Bool :=
  r.name == n && r.parent == p

/-- The query `{ name, owner, parentFolder }` on the folder collection. -/
def folderKeyMatch (n : String) (p : Option Nat) (f : FolderRec) : Bool :=
  f.name == n && f.parent == p

/-- `FileModel.findOne` on the key query: Mongo returns the first match. -/
def findFile (n : String) (p : Option Nat) (db : DB) : Option FileRec :=
  db.files.find? (fileKeyMatch n p)

/-- `FolderModel.findOne` on the key query. -/
def findFolder (n : String) (p : Option Nat) (db : DB) : Option FolderRec :=
  db.folders.find? (folderKeyMatch n p)

/-- Replace the first element satisfying `q` by its image under `g`
(Mongo's `findOneAndUpdate` updates a single matching document). -/
def updateFirst {α : Type} (q : α → Bool) (g : α → α) : List α → List α
  | [] => []
  | a :: as => if q a then g a :: as else a :: updateFirst q g as

/-- The `$set` document of `syncToDB`'s `findOneAndUpdate` (fileManager.js
lines 761-772): `storageKey`, `size`, `extension`, `mimetype`, `owner`,
`parentFolder`; all other fields (notably `fileData`, `isEncrypted`) are
left as they are. -/
def setSyncFields (sk : String) (sz : Nat) (e m : String) (p : Option Nat)
    (r : FileRec) : FileRec :=
  { r with storageKey := sk, size := sz, ext := e, mime := m, parent := p }

/-- `findOneAndUpdate(query, update, { upsert: true })`: update the first
document matching the key, or insert a new one (with schema defaults
`fileData` absent and `isEncrypted: false`) when none matches. -/
def upsertFile (n : String) (p : Option Nat) (sk : String) (sz : Nat) (e m : String)
    (db : DB) : DB :=
  if db.files.any (fileKeyMatch n p) then
    { db with files := updateFirst (fileKeyMatch n p) (setSyncFields sk sz e m p) db.files }
  else
    { db with files := db.files ++ [⟨db.next, n, p, sk, sz, e, m, none, false⟩],
              next := db.next + 1 }

/-- `dbHelper.ensureFolderDoc` (fileManager.js lines 694-700): return the
id of the folder record matching `(name, owner, parentFolder)`, creating
it when absent. -/
def ensureFolderDoc (n : String) (p : Option Nat) (db : DB) : Nat × DB :=
  match findFolder n p db with
  | some f => (f.id, db)
  | none => (db.next, ⟨db.folders ++ [⟨db.next, n, p⟩], db.files, db.next + 1⟩)

/-- `FileModel.create` as used by `FileOps.createFile` / `copy`: a plain
insert, rejected by the schema's unique index
(`fileSchema.index({owner,parentFolder,filename},{unique:true})`,
src/unnamed/part_000 line 26) when the key already exists — the state is
then unchanged and the error is reported. -/
def createFileRec (n : String) (p : Option Nat) (sk : String) (sz : Nat) (e m : String)
    (db : DB) : DB :=
  if db.files.any (fileKeyMatch n p) then db
  else { db with files := db.files ++ [⟨db.next, n, p, sk, sz, e, m, none, false⟩],
                 next := db.next + 1 }

/-- `FileModel.findOneAndDelete({ filename, owner })` as used by
`FileOps.delete`: remove the first record with the given filename. -/
def deleteFileRec (n : String) (db : DB) : DB :=
  { db with files := db.files.eraseP (fun r => r.name == n) }

/-- `path.extname`: the substring from the last `'.'` to the end, empty
when there is no dot or the only dot starts the name. -/
def extname (n : String) : String :=
  let cs := n.toList
  match ((List.range cs.length).filter
      (fun j => (cs.get? j == some '.') && (j != 0))).getLast? with
  | some j => ⟨cs.drop j⟩
  | none => ""

/-- `dbHelper.getMimeType` (fileManager.js lines 702-706). -/
def mimeOf (n : String) : String :=
  let e := (extname n).toLower
  if e = ".txt" then "text/plain"
  else if e = ".js" then "application/javascript"
  else if e = ".json" then "application/json"
  else if e = ".jpg" then "image/jpeg"
  else if e = ".png" then "image/png"
  else "application/octet-stream"

/-- A directory entry of the on-disk tree. A file entry carries the
result of `fs.stat` (`none`: the stat throws, the size otherwise); names
inside a directory are the `readdir` listing. -/
inductive Entry : Type where
  | file : String → Option Nat → Entry
  | dir : String → List Entry → Entry

/-- `dbOps.syncToDB` (fileManager.js lines 749-777): walk the listing of
the current directory. A subdirectory (except the reserved `backups`
area) is ensured a folder record and recursed into — the recursive call
is itself wrapped in `safeExecute`, so its failures are swallowed and the
loop continues. A file entry is stat-ed and upserted; a thrown stat is
caught only by the present invocation's wrapper, so it aborts the
remaining entries of this listing (`false` = this invocation failed).
Mutations already performed persist either way. -/
def syncF : String → Option Nat → List Entry → DB → DB × Bool
  | _, _, [], db => (db, true)
  | cur, p, .file n st :: rest, db =>
    match st with
    | none => (db, false)
    | some sz =>
      syncF cur p rest (upsertFile n p (cur ++ "/" ++ n) sz (extname n) (mimeOf n) db)
  | cur, p, .dir n ch :: rest, db =>
    if n = "backups" then syncF cur p rest db
    else
      let r := ensureFolderDoc n p db
      let s := syncF (cur ++ "/" ++ n) (some r.1) ch r.2
      syncF cur p rest s.1

/-- The loop of `dbOps.cleanDB` (fileManager.js lines 842-871): iterate
over the snapshot of the owner's records; for each, probe the
`storageKey` on disk (`acc`), and delete the record by id
(`findByIdAndDelete`) when the probe fails, counting deletions. The
per-record probe failure is caught inside the loop, so an inaccessible
file never aborts the scan. -/
def cleanLoop (acc : String → Bool) : List FileRec → DB → Nat → DB × Nat
  | [], db, c => (db, c)
  | f :: rest, db, c =>
    if acc f.storageKey then cleanLoop acc rest db c
    else cleanLoop acc rest
      { db with files := db.files.eraseP (fun r => r.id == f.id) } (c + 1)

/-- `dbOps.cleanDB`: fetch all records, scan them, return the cleaned
index and the number of removed orphans. -/
def cleanDB (acc : String → Bool) (db : DB) : DB × Nat :=
  cleanLoop acc db.files db 0

theorem cleanLoop_spec (acc : String → Bool) :
    ∀ (l done : List FileRec) (fol : List FolderRec) (nx c : Nat),
      (((done ++ l).map FileRec.id).Nodup) →
      cleanLoop acc l ⟨fol, done ++ l, nx⟩ c
        = (⟨fol, done ++ l.filter (fun f => acc f.storageKey), nx⟩,
           c + (l.filter (fun f => !acc f.storageKey)).length) := by
  intro l
  induction l with
  | nil => intro done fol nx c _; simp [cleanLoop]
  | cons f rest ih =>
    intro done fol nx c hnd
    by_cases hf : acc f.storageKey
    · have : done ++ f :: rest = (done ++ [f]) ++ rest := by simp
      rw [cleanLoop, if_pos hf, this, ih (done ++ [f]) fol nx c (by rw [← this]; exact hnd)]
      simp [hf]
    · have hdis : (done.map FileRec.id).Disjoint ((f :: rest).map FileRec.id) :=
        (List.nodup_append.mp (by simpa using hnd)).2.2
      have herase : (done ++ f :: rest).eraseP (fun r => r.id == f.id) = done ++ rest := by
        rw [List.eraseP_append_right _ (fun b hb => ?_), List.eraseP_cons_of_pos (by simp)]
        simp only [beq_iff_eq]
        intro hbe
        exact hdis (List.mem_map_of_mem FileRec.id hb) (by simp [hbe])
      have hsub : List.Sublist (done ++ rest) (done ++ f :: rest) :=
        List.Sublist.append_left (List.sublist_cons_self f rest) done
      have hnd' : ((done ++ rest).map FileRec.id).Nodup :=
        hnd.sublist (hsub.map FileRec.id)
      rw [cleanLoop, if_neg hf]
      simp only [herase]
      rw [ih done fol nx (c + 1) hnd']
      simp only [List.filter_cons, hf, Bool.false_eq_true, if_false, Bool.not_false,
        if_true, List.length_cons, Prod.mk.injEq]
      exact ⟨trivial, by omega⟩

/-- C8: when exactly the records with an inaccessible `storageKey` are
the orphans, `cleanDB` deletes exactly those, leaves every other record
(and the folder collection) unchanged, and its count equals the number
of orphans; the per-record probe never raises — the scan is total in the
probe outcome. -/
theorem auditAll_removes_exactly_orphans (acc : String → Bool) (db : DB)
    (h : (db.files.map FileRec.id).Nodup) :
    (cleanDB acc db).1.files = db.files.filter (fun f => acc f.storageKey) ∧
    (cleanDB acc db).1.folders = db.folders ∧
    (cleanDB acc db).1.next = db.next ∧
    (cleanDB acc db).2 = (db.files.filter (fun f => !acc f.storageKey)).length := by
  obtain ⟨fol, fl, nx⟩ := db
  have h2 := cleanLoop_spec acc fl [] fol nx 0 (by simpa using h)
  simp only [List.nil_append] at h2
  rw [cleanDB]
  simp only at h2 ⊢
  rw [h2]
  simp

/-- Witness for C8 at a concrete index with one orphan. -/
theorem auditAll_removes_exactly_orphans_wit :
    (let dbw : DB := ⟨[], [⟨0, "a.txt", none, "k1", 1, "", "", none, false⟩,
                          ⟨1, "b.txt", none, "k2", 2, "", "", none, false⟩], 2⟩
     ((dbw.files.map FileRec.id).Nodup) ∧
     ((cleanDB (fun s => s == "k1") dbw).1.files
        = dbw.files.filter (fun f => (fun s => s == "k1") f.storageKey) ∧
      (cleanDB (fun s => s == "k1") dbw).1.folders = dbw.folders ∧
      (cleanDB (fun s => s == "k1") dbw).1.next = dbw.next ∧
      (cleanDB (fun s => s == "k1") dbw).2
        = (dbw.files.filter (fun f => !(fun s => s == "k1") f.storageKey)).length)) :=
  ⟨by decide, auditAll_removes_exactly_orphans (fun s => s == "k1") _ (by decide)⟩

/-! ## Uniqueness invariant (`fileSchema.index` / `folderSchema.index`) -/

/-- The key triple of a file record with the constant owner dropped. -/
def fileKeys (db : DB) : List (String × Option Nat) :=
  db.files.map fun r => (r.name, r.parent)

/-- The key triple of a folder record with the constant owner dropped. -/
def folderKeys (db : DB) : List (String × Option Nat) :=
  db.folders.map fun f => (f.name, f.parent)

/-- No two file records share `(owner, parentFolder, filename)`. -/
def UniqueFileKeys (db : DB) : Prop := (fileKeys db).Nodup

/-- No two folder records share `(owner, parentFolder, name)`. -/
def UniqueFolderKeys (db : DB) : Prop := (folderKeys db).Nodup

theorem updateFirst_syncFields_keys (n : String) (p : Option Nat) (sk : String)
    (sz : Nat) (e m : String) :
    ∀ l : List FileRec,
      (updateFirst (fileKeyMatch n p) (setSyncFields sk sz e m p) l).map
          (fun r => (r.name, r.parent))
        = l.map (fun r => (r.name, r.parent)) := by
  intro l
  induction l with
  | nil => rfl
  | cons a as ih =>
    by_cases h : fileKeyMatch n p a
    · have h2 : a.parent = p := by
        simp only [fileKeyMatch, Bool.and_eq_true, beq_iff_eq] at h
        exact h.2
      simp [updateFirst, h, setSyncFields, h2]
    · simp [updateFirst, h, ih]

theorem not_any_fileKey (n : String) (p : Option Nat) (db : DB)
    (h : ¬ db.files.any (fileKeyMatch n p)) : (n, p) ∉ fileKeys db := by
  intro hmem
  rcases List.mem_map.mp hmem with ⟨r, hr, hkey⟩
  apply h
  rw [List.any_eq_true]
  refine ⟨r, hr, ?_⟩
  simp only [Prod.mk.injEq] at hkey
  simp [fileKeyMatch, hkey.1, hkey.2]

theorem upsertFile_folders (n : String) (p : Option Nat) (sk : String) (sz : Nat)
    (e m : String) (db : DB) : (upsertFile n p sk sz e m db).folders = db.folders := by
  unfold upsertFile; split <;> rfl

theorem ensureFolderDoc_files (n : String) (p : Option Nat) (db : DB) :
    (ensureFolderDoc n p db).2.files = db.files := by
  unfold ensureFolderDoc
  cases findFolder n p db <;> rfl

theorem upsertFile_fileKeys (n : String) (p : Option Nat) (sk : String) (sz : Nat)
    (e m : String) (db : DB) :
    fileKeys (upsertFile n p sk sz e m db)
      = if db.files.any (fileKeyMatch n p) then fileKeys db
        else fileKeys db ++ [(n, p)] := by
  unfold upsertFile fileKeys
  split
  · simp [updateFirst_syncFields_keys]
  · simp

theorem upsertFile_unique (n : String) (p : Option Nat) (sk : String) (sz : Nat)
    (e m : String) (db : DB) (h : UniqueFileKeys db) :
    UniqueFileKeys (upsertFile n p sk sz e m db) := by
  unfold UniqueFileKeys
  rw [upsertFile_fileKeys]
  split
  · exact h
  · rename_i hany
    simp only [List.nodup_append, List.nodup_cons, List.not_mem_nil, not_false_iff,
      List.nodup_nil, and_true, true_and]
    exact ⟨h, fun a ha hb => by
      rw [List.mem_singleton] at hb
      exact not_any_fileKey n p db (by simpa using hany) (hb ▸ ha)⟩

theorem not_findFolder_key (n : String) (p : Option Nat) (db : DB)
    (h : findFolder n p db = none) : (n, p) ∉ folderKeys db := by
  intro hmem
  rcases List.mem_map.mp hmem with ⟨f, hf, hkey⟩
  rw [findFolder, List.find?_eq_none] at h
  apply h f hf
  simp only [Prod.mk.injEq] at hkey
  simp [folderKeyMatch, hkey.1, hkey.2]

theorem ensureFolderDoc_unique (n : String) (p : Option Nat) (db : DB)
    (h : UniqueFolderKeys db) : UniqueFolderKeys (ensureFolderDoc n p db).2 := by
  unfold ensureFolderDoc
  cases hf : findFolder n p db with
  | some f => exact h
  | none =>
    unfold UniqueFolderKeys folderKeys at h ⊢
    simp only [List.map_append, List.map_cons, List.map_nil, List.nodup_append,
      List.nodup_cons, List.not_mem_nil, not_false_iff, List.nodup_nil, and_true, true_and]
    exact ⟨h, fun a ha hb => by
      rw [List.mem_singleton] at hb
      exact not_findFolder_key n p db hf (hb ▸ ha)⟩

theorem createFileRec_unique (n : String) (p : Option Nat) (sk : String) (sz : Nat)
    (e m : String) (db : DB) (h : UniqueFileKeys db) :
    UniqueFileKeys (createFileRec n p sk sz e m db) := by
  unfold createFileRec
  split
  · exact h
  · rename_i hany
    unfold UniqueFileKeys fileKeys at h ⊢
    simp only [List.map_append, List.map_cons, List.map_nil, List.nodup_append,
      List.nodup_cons, List.not_mem_nil, not_false_iff, List.nodup_nil, and_true, true_and]
    exact ⟨h, fun a ha hb => by
      rw [List.mem_singleton] at hb
      exact not_any_fileKey n p db hany (hb ▸ ha)⟩

theorem deleteFileRec_unique (n : String) (db : DB) (h : UniqueFileKeys db) :
    UniqueFileKeys (deleteFileRec n db) := by
  unfold UniqueFileKeys fileKeys at h ⊢
  unfold deleteFileRec
  exact h.sublist ((List.eraseP_sublist _).map _)

theorem ensureFolderDoc_fileKeys (n : String) (p : Option Nat) (db : DB) :
    fileKeys (ensureFolderDoc n p db).2 = fileKeys db := by
  unfold fileKeys; rw [ensureFolderDoc_files]

theorem upsertFile_folderKeys (n : String) (p : Option Nat) (sk : String) (sz : Nat)
    (e m : String) (db : DB) :
    folderKeys (upsertFile n p sk sz e m db) = folderKeys db := by
  unfold folderKeys; rw [upsertFile_folders]

theorem syncF_unique : ∀ (cur : String) (p : Option Nat) (es : List Entry) (db : DB),
    UniqueFileKeys db → UniqueFolderKeys db →
    UniqueFileKeys (syncF cur p es db).1 ∧ UniqueFolderKeys (syncF cur p es db).1 := by
  intro cur p es db
  induction cur, p, es, db using syncF.induct with
  | case1 cur p db => intro h1 h2; simp [syncF]; exact ⟨h1, h2⟩
  | case2 cur p n rest db =>
    intro h1 h2; simp [syncF]; exact ⟨h1, h2⟩
  | case3 cur p n rest db sz ih =>
    intro h1 h2
    simp only [syncF]
    exact ih (upsertFile_unique _ _ _ _ _ _ _ h1)
      (by unfold UniqueFolderKeys; rw [upsertFile_folderKeys]; exact h2)
  | case4 cur p ch rest db ih =>
    intro h1 h2
    simp only [syncF, if_pos rfl]
    exact ih h1 h2
  | case5 cur p n ch rest db hn r s ih1 ih2 ih3 =>
    intro h1 h2
    simp only [syncF, if_neg hn]
    have hr1 : UniqueFileKeys (ensureFolderDoc n p db).2 := by
      unfold UniqueFileKeys; rw [ensureFolderDoc_fileKeys]; exact h1
    have hr2 := ensureFolderDoc_unique n p db h2
    exact ih3 (ih2 hr1 hr2).1 (ih2 hr1 hr2).2

theorem cleanLoop_shape (acc : String → Bool) :
    ∀ (l : List FileRec) (db : DB) (c : Nat),
      List.Sublist (cleanLoop acc l db c).1.files db.files ∧
      (cleanLoop acc l db c).1.folders = db.folders := by
  intro l
  induction l with
  | nil => intro db c; simp [cleanLoop]
  | cons f rest ih =>
    intro db c
    rw [cleanLoop]
    split
    · exact ih db c
    · refine ⟨(ih _ _).1.trans (by simpa using List.eraseP_sublist db.files), (ih _ _).2⟩

theorem cleanDB_unique (acc : String → Bool) (db : DB)
    (h1 : UniqueFileKeys db) (h2 : UniqueFolderKeys db) :
    UniqueFileKeys (cleanDB acc db).1 ∧ UniqueFolderKeys (cleanDB acc db).1 := by
  have hs := cleanLoop_shape acc db.files db 0
  constructor
  · exact h1.sublist (hs.1.map _)
  · unfold UniqueFolderKeys folderKeys
    rw [show (cleanDB acc db).1.folders = db.folders from hs.2]
    exact h2

/-- The index states reachable by the program's index operations:
starting from the empty store, any interleaving of upserts, folder
ensures, guarded creates, deletes, full syncs and cleanups. -/
inductive Reachable : DB → Prop where
  | empty : Reachable emptyDB
  | upsert (n : String) (p : Option Nat) (sk : String) (sz : Nat) (e m : String)
      {db : DB} : Reachable db → Reachable (upsertFile n p sk sz e m db)
  | ensure (n : String) (p : Option Nat) {db : DB} :
      Reachable db → Reachable (ensureFolderDoc n p db).2
  | create (n : String) (p : Option Nat) (sk : String) (sz : Nat) (e m : String)
      {db : DB} : Reachable db → Reachable (createFileRec n p sk sz e m db)
  | delete (n : String) {db : DB} : Reachable db → Reachable (deleteFileRec n db)
  | sync (cur : String) (p : Option Nat) (es : List Entry) {db : DB} :
      Reachable db → Reachable (syncF cur p es db).1
  | clean (acc : String → Bool) {db : DB} :
      Reachable db → Reachable (cleanDB acc db).1

theorem updateFirst_length {α : Type} (q : α → Bool) (g : α → α) :
    ∀ l : List α, (updateFirst q g l).length = l.length := by
  intro l
  induction l with
  | nil => rfl
  | cons a as ih => by_cases h : q a <;> simp [updateFirst, h, ih]

theorem reachable_unique (db : DB) (h : Reachable db) :
    UniqueFileKeys db ∧ UniqueFolderKeys db := by
  induction h with
  | empty => constructor <;> simp [UniqueFileKeys, UniqueFolderKeys, fileKeys,
      folderKeys, emptyDB]
  | upsert n p sk sz e m _ ih =>
    exact ⟨upsertFile_unique _ _ _ _ _ _ _ ih.1,
      by unfold UniqueFolderKeys; rw [upsertFile_folderKeys]; exact ih.2⟩
  | ensure n p _ ih =>
    exact ⟨by unfold UniqueFileKeys; rw [ensureFolderDoc_fileKeys]; exact ih.1,
      ensureFolderDoc_unique n p _ ih.2⟩
  | create n p sk sz e m _ ih =>
    refine ⟨createFileRec_unique _ _ _ _ _ _ _ ih.1, ?_⟩
    unfold UniqueFolderKeys folderKeys createFileRec
    split <;> exact ih.2
  | delete n _ ih =>
    exact ⟨deleteFileRec_unique _ _ ih.1, ih.2⟩
  | sync cur p es _ ih => exact syncF_unique cur p es _ ih.1 ih.2
  | clean acc _ ih => exact cleanDB_unique acc _ ih.1 ih.2

/-- C4: in every reachable index state, no two file records and no two
folder records share the key triple (owner, parent folder, name); and an
upsert targeting an existing key merges into the existing record — the
record count does not grow. -/
theorem unique_key_invariant (db : DB) (h : Reachable db) :
    UniqueFileKeys db ∧ UniqueFolderKeys db ∧
    (∀ (n : String) (p : Option Nat) (sk : String) (sz : Nat) (e m : String),
      db.files.any (fileKeyMatch n p) →
      (upsertFile n p sk sz e m db).files.length = db.files.length) := by
  refine ⟨(reachable_unique db h).1, (reachable_unique db h).2, ?_⟩
  intro n p sk sz e m hany
  unfold upsertFile
  rw [if_pos hany]
  exact updateFirst_length _ _ _

/-- Witness for C4 at a concrete reachable state. -/
theorem unique_key_invariant_wit :
    (Reachable (upsertFile "a.txt" none "k" 1 ".txt" "text/plain" emptyDB)) ∧
    (UniqueFileKeys (upsertFile "a.txt" none "k" 1 ".txt" "text/plain" emptyDB) ∧
     UniqueFolderKeys (upsertFile "a.txt" none "k" 1 ".txt" "text/plain" emptyDB) ∧
     (∀ (n : String) (p : Option Nat) (sk : String) (sz : Nat) (e m : String),
       (upsertFile "a.txt" none "k" 1 ".txt" "text/plain" emptyDB).files.any
          (fileKeyMatch n p) →
       (upsertFile n p sk sz e m
          (upsertFile "a.txt" none "k" 1 ".txt" "text/plain" emptyDB)).files.length
         = (upsertFile "a.txt" none "k" 1 ".txt" "text/plain" emptyDB).files.length)) :=
  ⟨Reachable.upsert _ _ _ _ _ _ Reachable.empty,
   unique_key_invariant _ (Reachable.upsert _ _ _ _ _ _ Reachable.empty)⟩

/-! ## Sync idempotence: invariants of the index under the walk -/

/-- `q` is `none` or a value below `k`. -/
def OptLt (q : Option Nat) (k : Nat) : Prop :=
  match q with
  | some j => j < k
  | none => True

instance (q : Option Nat) (k : Nat) : Decidable (OptLt q k) :=
  match q with
  | some j => inferInstanceAs (Decidable (j < k))
  | none => .isTrue trivial

/-- The walk parent is a valid (already minted) folder id. -/
def pOK (p : Option Nat) (db : DB) : Prop := OptLt p db.next

/-- Index sanity: every folder id is below the minting counter, every
folder's parent id is below its own id (ids are minted parent first),
and ids are pairwise distinct. These hold for every index the program
builds from the empty store. -/
def DBInv (db : DB) : Prop :=
  (∀ f ∈ db.folders, f.id < db.next) ∧
  (∀ f ∈ db.folders, OptLt f.parent f.id) ∧
  (db.folders.map FolderRec.id).Nodup

/-- The `readdir` names of a listing. -/
def namesOf (es : List Entry) : List String :=
  es.map fun e => match e with | .file n _ => n | .dir n _ => n

/-- The names of the file entries of a listing. -/
def fileNamesOf (es : List Entry) : List String :=
  es.filterMap fun e => match e with | .file n _ => some n | .dir _ _ => none

/-- The names of the subdirectory entries of a listing. -/
def dirNamesOf (es : List Entry) : List String :=
  es.filterMap fun e => match e with | .file _ _ => none | .dir n _ => some n

theorem mem_namesOf_of_fileNames {es : List Entry} {n : String}
    (h : n ∈ fileNamesOf es) : n ∈ namesOf es := by
  unfold fileNamesOf at h
  rcases List.mem_filterMap.mp h with ⟨e, he, hn⟩
  cases e with
  | file m st => simp at hn; exact hn ▸ List.mem_map_of_mem _ he
  | dir m ch => simp at hn

theorem mem_namesOf_of_dirNames {es : List Entry} {n : String}
    (h : n ∈ dirNamesOf es) : n ∈ namesOf es := by
  unfold dirNamesOf at h
  rcases List.mem_filterMap.mp h with ⟨e, he, hn⟩
  cases e with
  | file m st => simp at hn
  | dir m ch => simp at hn; exact hn ▸ List.mem_map_of_mem _ he

/-- The parent id `q` names a position strictly above every parent the
walk below `p` can use. -/
def TooShallow (q p : Option Nat) : Prop :=
  ∃ m, p = some m ∧ (q = none ∨ ∃ j, q = some j ∧ j < m)

/-- The folder ids reachable from `root` by following child records
(records whose parent chain leads back to `root`). -/
inductive InTree (db : DB) (root : Nat) : Nat → Prop where
  | base : InTree db root root
  | step {v w : Nat} {rec : FolderRec} : rec ∈ db.folders → rec.id = v →
      rec.parent = some w → InTree db root w → InTree db root v

theorem InTree_ge {db : DB} {root v : Nat}
    (hlt : ∀ f ∈ db.folders, OptLt f.parent f.id) (h : InTree db root v) :
    root ≤ v := by
  induction h with
  | base => exact Nat.le_refl _
  | @step v w rec hmem hid hpar _ ih =>
    have h2 : w < rec.id := by
      have h3 := hlt _ hmem
      rw [hpar] at h3
      exact h3
    omega

/-- Well-formed disk listing: the entry names of every directory level
are pairwise distinct (as `readdir` guarantees). -/
inductive WfT : List Entry → Prop where
  | mk {es : List Entry} : (namesOf es).Nodup →
      (∀ n ch, Entry.dir n ch ∈ es → WfT ch) → WfT es

/-- Every `fs.stat` of the walk succeeds (the tree is healthy). -/
inductive AllOk : List Entry → Prop where
  | mk {es : List Entry} : (∀ n st, Entry.file n st ∈ es → st.isSome) →
      (∀ n ch, Entry.dir n ch ∈ es → AllOk ch) → AllOk es

theorem WfT_tail {e : Entry} {rest : List Entry} (h : WfT (e :: rest)) : WfT rest := by
  cases h with
  | mk h1 h2 => exact ⟨h1.of_cons, fun n ch hm => h2 n ch (List.mem_cons_of_mem _ hm)⟩

theorem AllOk_tail {e : Entry} {rest : List Entry} (h : AllOk (e :: rest)) : AllOk rest := by
  cases h with
  | mk h1 h2 => exact ⟨fun n st hm => h1 n st (List.mem_cons_of_mem _ hm),
      fun n ch hm => h2 n ch (List.mem_cons_of_mem _ hm)⟩

theorem find?_eq_head_filter {α : Type} (q : α → Bool) :
    ∀ l : List α, l.find? q = (l.filter q).head? := by
  intro l
  induction l with
  | nil => rfl
  | cons a as ih =>
    by_cases h : q a
    · simp [List.find?_cons, h, List.filter_cons]
    · simp only [List.find?_cons, List.filter_cons, h]
      simp only [cond_false, if_false, Bool.false_eq_true, ih]

theorem find?_append_some {α : Type} {q : α → Bool} {l t : List α} {a : α}
    (h : l.find? q = some a) : (l ++ t).find? q = some a := by
  rw [List.find?_append, h]; rfl

theorem updateFirst_eq_self {α : Type} {q : α → Bool} {g : α → α} :
    ∀ {l : List α} {a : α}, l.find? q = some a → g a = a → updateFirst q g l = l := by
  intro l
  induction l with
  | nil => intro a h; simp [List.find?_nil] at h
  | cons b bs ih =>
    intro a h hg
    by_cases hb : q b
    · rw [List.find?_cons_of_pos _ hb] at h
      cases h
      simp [updateFirst, hb, hg]
    · rw [List.find?_cons_of_neg _ hb] at h
      simp [updateFirst, hb, ih h hg]

theorem find?_updateFirst {α : Type} {q : α → Bool} {g : α → α}
    (hg : ∀ a, q a → q (g a)) :
    ∀ l : List α, (updateFirst q g l).find? q = (l.find? q).map g := by
  intro l
  induction l with
  | nil => rfl
  | cons a as ih =>
    by_cases h : q a
    · simp [updateFirst, h, List.find?_cons_of_pos _ (hg a h), List.find?_cons_of_pos _ h]
    · simp [updateFirst, h, List.find?_cons_of_neg _ h, ih]

theorem filter_updateFirst {α : Type} {q1 q2 : α → Bool} {g : α → α}
    (hg : ∀ a, q2 a → (q1 a = false ∧ q1 (g a) = false)) :
    ∀ l : List α, (updateFirst q2 g l).filter q1 = l.filter q1 := by
  intro l
  induction l with
  | nil => rfl
  | cons a as ih =>
    by_cases h : q2 a
    · have := hg a h
      simp [updateFirst, h, List.filter_cons, this.1, this.2]
    · simp only [updateFirst, h, if_false, Bool.false_eq_true, List.filter_cons, ih]

theorem upsertFile_next_le (n : String) (p : Option Nat) (sk : String) (sz : Nat)
    (e m : String) (db : DB) : db.next ≤ (upsertFile n p sk sz e m db).next := by
  unfold upsertFile
  split
  · exact Nat.le_refl _
  · exact Nat.le_succ _

theorem pOK_mono {p : Option Nat} {db db' : DB} (h : pOK p db)
    (hle : db.next ≤ db'.next) : pOK p db' := by
  unfold pOK OptLt at h ⊢
  cases p with
  | none => trivial
  | some j => omega

theorem upsertFile_DBInv (n : String) (p : Option Nat) (sk : String) (sz : Nat)
    (e m : String) (db : DB) (h : DBInv db) : DBInv (upsertFile n p sk sz e m db) := by
  obtain ⟨h1, h2, h3⟩ := h
  refine ⟨?_, ?_, ?_⟩ <;> rw [upsertFile_folders]
  · exact fun f hf => Nat.lt_of_lt_of_le (h1 f hf) (upsertFile_next_le n p sk sz e m db)
  · exact h2
  · exact h3

theorem fileKeyMatch_false (n n' : String) (p q : Option Nat)
    (hne : ¬ (n = n' ∧ p = q)) : ((n == n') && (p == q)) = false := by
  by_cases h1 : n = n'
  · have h2 : p ≠ q := fun h2 => hne ⟨h1, h2⟩
    simp [h1, h2]
  · simp [h1]

theorem upsertFile_filter_other (n : String) (p : Option Nat) (sk : String) (sz : Nat)
    (e m : String) (db : DB) (n' : String) (q : Option Nat)
    (hne : ¬ (n = n' ∧ p = q)) :
    (upsertFile n p sk sz e m db).files.filter (fileKeyMatch n' q)
      = db.files.filter (fileKeyMatch n' q) := by
  have hfalse := fileKeyMatch_false n n' p q hne
  unfold upsertFile
  split
  · apply filter_updateFirst
    intro a ha
    simp only [fileKeyMatch, Bool.and_eq_true, beq_iff_eq] at ha
    constructor
    · simp only [fileKeyMatch, ha.1, ha.2]
      exact hfalse
    · simp only [fileKeyMatch, setSyncFields, ha.1]
      exact hfalse
  · simp only [List.filter_append]
    rw [show (List.filter (fileKeyMatch n' q)
        [⟨db.next, n, p, sk, sz, e, m, none, false⟩] : List FileRec) = [] from ?_]
    · simp
    · simp only [List.filter_cons, List.filter_nil]
      rw [show fileKeyMatch n' q ⟨db.next, n, p, sk, sz, e, m, none, false⟩ = false
          from hfalse]
      simp

theorem findFile_upsert_self (n : String) (p : Option Nat) (sk : String) (sz : Nat)
    (e m : String) (db : DB) :
    ∃ r, findFile n p (upsertFile n p sk sz e m db) = some r ∧
      r.name = n ∧ r.parent = p ∧ r.storageKey = sk ∧ r.size = sz ∧
      r.ext = e ∧ r.mime = m := by
  unfold upsertFile findFile
  split
  · rename_i hany
    obtain ⟨x, hx, hqx⟩ := List.any_eq_true.mp hany
    have hsome : (db.files.find? (fileKeyMatch n p)).isSome :=
      List.find?_isSome.mpr ⟨x, hx, hqx⟩
    obtain ⟨r0, hr0⟩ := Option.isSome_iff_exists.mp hsome
    have hr0m := List.find?_some hr0
    simp only [fileKeyMatch, Bool.and_eq_true, beq_iff_eq] at hr0m
    refine ⟨setSyncFields sk sz e m p r0, ?_, ?_, ?_, ?_, ?_, ?_, ?_⟩
    · rw [find?_updateFirst (fun a ha => ?_) db.files, hr0]
      · rfl
      · simp only [fileKeyMatch, Bool.and_eq_true, beq_iff_eq] at ha
        simp [fileKeyMatch, setSyncFields, ha.1]
    · exact hr0m.1
    all_goals rfl
  · rename_i hany
    refine ⟨⟨db.next, n, p, sk, sz, e, m, none, false⟩, ?_, rfl, rfl, rfl, rfl, rfl, rfl⟩
    rw [List.find?_append, List.find?_eq_none.mpr, Option.none_or]
    · simp [fileKeyMatch]
    · intro a ha
      exact fun hq => (List.any_eq_true.not.mp hany) ⟨a, ha, hq⟩

theorem ensureFolderDoc_next_le (n : String) (p : Option Nat) (db : DB) :
    db.next ≤ (ensureFolderDoc n p db).2.next := by
  unfold ensureFolderDoc
  cases findFolder n p db
  · exact Nat.le_succ _
  · exact Nat.le_refl _

theorem ensureFolderDoc_folders_ext (n : String) (p : Option Nat) (db : DB) :
    ∃ t, (ensureFolderDoc n p db).2.folders = db.folders ++ t ∧
      ∀ rec ∈ t, rec.id = db.next ∧ rec.name = n ∧ rec.parent = p := by
  unfold ensureFolderDoc
  cases findFolder n p db
  · exact ⟨[⟨db.next, n, p⟩], rfl, fun rec hrec => by
      rw [List.mem_singleton] at hrec
      exact hrec ▸ ⟨rfl, rfl, rfl⟩⟩
  · exact ⟨[], by simp, by simp⟩

theorem ensureFolderDoc_id_lt (n : String) (p : Option Nat) (db : DB) (h : DBInv db) :
    (ensureFolderDoc n p db).1 < (ensureFolderDoc n p db).2.next := by
  unfold ensureFolderDoc
  cases hf : findFolder n p db with
  | none => exact Nat.lt_succ_self _
  | some f => exact h.1 f (List.mem_of_find?_eq_some hf)

theorem ensureFolderDoc_parent_lt (n : String) (p : Option Nat) (db : DB)
    (hInv : DBInv db) (hp : pOK p db) :
    ∀ j, p = some j → j < (ensureFolderDoc n p db).1 := by
  intro j hj
  unfold ensureFolderDoc
  cases hf : findFolder n p db with
  | none =>
    subst hj
    exact hp
  | some f =>
    have hm := List.find?_some hf
    simp only [folderKeyMatch, Bool.and_eq_true, beq_iff_eq] at hm
    have := hInv.2.1 f (List.mem_of_find?_eq_some hf)
    rw [hm.2, hj] at this
    exact this

theorem ensureFolderDoc_DBInv (n : String) (p : Option Nat) (db : DB)
    (hInv : DBInv db) (hp : pOK p db) : DBInv (ensureFolderDoc n p db).2 := by
  obtain ⟨h1, h2, h3⟩ := hInv
  unfold ensureFolderDoc
  cases hf : findFolder n p db with
  | some f => exact ⟨h1, h2, h3⟩
  | none =>
    refine ⟨?_, ?_, ?_⟩
    · intro f hf2
      rcases List.mem_append.mp hf2 with h | h
      · exact Nat.lt_succ_of_lt (h1 f h)
      · rw [List.mem_singleton] at h
        subst h
        exact Nat.lt_succ_self _
    · intro f hf2
      rcases List.mem_append.mp hf2 with h | h
      · exact h2 f h
      · rw [List.mem_singleton] at h
        subst h
        exact hp
    · simp only [List.map_append, List.map_cons, List.map_nil]
      rw [List.nodup_append]
      refine ⟨h3, List.nodup_singleton _, ?_⟩
      intro a ha hb
      rw [List.mem_singleton] at hb
      subst hb
      rcases List.mem_map.mp ha with ⟨f, hfm, hfe⟩
      exact absurd (hfe ▸ h1 f hfm) (Nat.lt_irrefl _)

theorem ensureFolderDoc_findFolder (n : String) (p : Option Nat) (db : DB) :
    ∃ f, findFolder n p (ensureFolderDoc n p db).2 = some f ∧
      f.id = (ensureFolderDoc n p db).1 ∧ f.name = n ∧ f.parent = p := by
  unfold ensureFolderDoc
  cases hf : findFolder n p db with
  | some f =>
    have hm := List.find?_some hf
    simp only [folderKeyMatch, Bool.and_eq_true, beq_iff_eq] at hm
    exact ⟨f, hf, rfl, hm.1, hm.2⟩
  | none =>
    refine ⟨⟨db.next, n, p⟩, ?_, rfl, rfl, rfl⟩
    unfold findFolder at hf ⊢
    rw [List.find?_append, hf, Option.none_or]
    simp [folderKeyMatch]

theorem syncF_basic : ∀ (cur : String) (p : Option Nat) (es : List Entry) (db : DB),
    DBInv db → pOK p db →
    db.next ≤ (syncF cur p es db).1.next ∧
    DBInv (syncF cur p es db).1 ∧
    (∃ t, (syncF cur p es db).1.folders = db.folders ++ t ∧
      ∀ rec ∈ t, db.next ≤ rec.id) := by
  intro cur p es db
  induction cur, p, es, db using syncF.induct with
  | case1 cur p db =>
    intro h hp
    simp only [syncF]
    exact ⟨Nat.le_refl _, h, [], by simp, by simp⟩
  | case2 cur p n rest db =>
    intro h hp
    simp only [syncF]
    exact ⟨Nat.le_refl _, h, [], by simp, by simp⟩
  | case3 cur p n rest db sz ih =>
    intro h hp
    simp only [syncF]
    have hle := upsertFile_next_le n p (cur ++ "/" ++ n) sz (extname n) (mimeOf n) db
    have h1 := upsertFile_DBInv n p (cur ++ "/" ++ n) sz (extname n) (mimeOf n) db h
    obtain ⟨ihle, ihinv, t, ht, htid⟩ := ih h1 (pOK_mono hp hle)
    refine ⟨Nat.le_trans hle ihle, ihinv, t, ?_,
      fun rec hrec => Nat.le_trans hle (htid rec hrec)⟩
    rw [ht, upsertFile_folders]
  | case4 cur p ch rest db ih =>
    intro h hp
    simp only [syncF, if_pos]
    exact ih h hp
  | case5 cur p n ch rest db hn r s ih1 ih2 ih3 =>
    intro h hp
    simp only [syncF, if_neg hn]
    have hle1 := ensureFolderDoc_next_le n p db
    have hinv1 := ensureFolderDoc_DBInv n p db h hp
    have hpok1 : pOK (some (ensureFolderDoc n p db).1) (ensureFolderDoc n p db).2 :=
      ensureFolderDoc_id_lt n p db h
    obtain ⟨le2, inv2, t1, ht1, ht1id⟩ := ih2 hinv1 hpok1
    obtain ⟨le3, inv3, t2, ht2, ht2id⟩ := ih3 inv2 (pOK_mono hp (Nat.le_trans hle1 le2))
    obtain ⟨t0, ht0, ht0id⟩ := ensureFolderDoc_folders_ext n p db
    refine ⟨Nat.le_trans hle1 (Nat.le_trans le2 le3), inv3, t0 ++ t1 ++ t2, ?_, ?_⟩
    · rw [ht2, ht1, ht0]
      simp [List.append_assoc]
    · intro rec hrec
      simp only [List.mem_append] at hrec
      rcases hrec with (h0 | h1) | h2
      · exact Nat.le_of_eq (ht0id rec h0).1.symm
      · exact Nat.le_trans hle1 (ht1id rec h1)
      · exact Nat.le_trans hle1 (Nat.le_trans le2 (ht2id rec h2))

theorem dirNamesOf_cons_file (n : String) (st : Option Nat) (rest : List Entry) :
    dirNamesOf (.file n st :: rest) = dirNamesOf rest := by
  simp [dirNamesOf]

theorem dirNamesOf_cons_dir (n : String) (ch : List Entry) (rest : List Entry) :
    dirNamesOf (.dir n ch :: rest) = n :: dirNamesOf rest := by
  simp [dirNamesOf]

/-- The walk of `es` below parent `p` never writes a file record whose
parent lies in the protected set `PO`, provided `p` itself is
unprotected, protected ids predate the walk, and every protected folder
record either hangs under another protected id, is invisible to this
level's lookups, or sits strictly above everything the walk can reach. -/
theorem syncF_filter_stable (PO : Option Nat → Prop) :
    ∀ (cur : String) (p : Option Nat) (es : List Entry) (db : DB),
      DBInv db → pOK p db →
      ¬ PO p →
      (∀ v, PO (some v) → v < db.next) →
      (∀ rec ∈ db.folders, PO (some rec.id) →
        PO rec.parent ∨ (rec.parent = p ∧ rec.name ∉ dirNamesOf es) ∨
        TooShallow rec.parent p) →
      ∀ (n' : String) (q : Option Nat), PO q →
        (syncF cur p es db).1.files.filter (fileKeyMatch n' q)
          = db.files.filter (fileKeyMatch n' q) := by
  intro cur p es db
  induction cur, p, es, db using syncF.induct with
  | case1 cur p db => intro _ _ _ _ _ n' q _; simp [syncF]
  | case2 cur p n rest db => intro _ _ _ _ _ n' q _; simp [syncF]
  | case3 cur p n rest db sz ih =>
    intro hInv hp hPOp hPOlt hC n' q hq
    simp only [syncF]
    have hle := upsertFile_next_le n p (cur ++ "/" ++ n) sz (extname n) (mimeOf n) db
    have hup : (upsertFile n p (cur ++ "/" ++ n) sz (extname n) (mimeOf n) db).files.filter
          (fileKeyMatch n' q)
        = db.files.filter (fileKeyMatch n' q) := by
      apply upsertFile_filter_other
      rintro ⟨rfl, rfl⟩
      exact hPOp hq
    rw [ih (upsertFile_DBInv _ _ _ _ _ _ _ hInv) (pOK_mono hp hle) hPOp
        (fun v hv => Nat.lt_of_lt_of_le (hPOlt v hv) hle) ?_ n' q hq, hup]
    intro rec hrec hPOrec
    rw [upsertFile_folders] at hrec
    have := hC rec hrec hPOrec
    rwa [dirNamesOf_cons_file] at this
  | case4 cur p ch rest db ih =>
    intro hInv hp hPOp hPOlt hC n' q hq
    simp only [syncF, if_pos]
    refine ih hInv hp hPOp hPOlt ?_ n' q hq
    intro rec hrec hPOrec
    have := hC rec hrec hPOrec
    rw [dirNamesOf_cons_dir] at this
    rcases this with h | ⟨h1, h2⟩ | h
    · exact Or.inl h
    · exact Or.inr (Or.inl ⟨h1, fun hm => h2 (List.mem_cons_of_mem _ hm)⟩)
    · exact Or.inr (Or.inr h)
  | case5 cur p n ch rest db hn r s ih1 ih2 ih3 =>
    intro hInv hp hPOp hPOlt hC n' q hq
    simp only [syncF, if_neg hn]
    have hfid_gt := ensureFolderDoc_parent_lt n p db hInv hp
    have hinv1 := ensureFolderDoc_DBInv n p db hInv hp
    have hpok1 : pOK (some (ensureFolderDoc n p db).1) (ensureFolderDoc n p db).2 :=
      ensureFolderDoc_id_lt n p db hInv
    have hle1 := ensureFolderDoc_next_le n p db
    have hPOfid : ¬ PO (some (ensureFolderDoc n p db).1) := by
      intro hPO
      cases hf : findFolder n p db with
      | none =>
        have hfid : (ensureFolderDoc n p db).1 = db.next := by
          unfold ensureFolderDoc; rw [hf]
        rw [hfid] at hPO
        exact absurd (hPOlt _ hPO) (Nat.lt_irrefl _)
      | some f =>
        have hfid : (ensureFolderDoc n p db).1 = f.id := by
          unfold ensureFolderDoc; rw [hf]
        have hfm := List.find?_some hf
        simp only [folderKeyMatch, Bool.and_eq_true, beq_iff_eq] at hfm
        rw [hfid] at hPO
        rcases hC f (List.mem_of_find?_eq_some hf) hPO with h | ⟨h1, h2⟩ | h
        · rw [hfm.2] at h
          exact hPOp h
        · rw [dirNamesOf_cons_dir] at h2
          exact h2 (hfm.1 ▸ List.mem_cons_self _ _)
        · obtain ⟨m, hm, hcase⟩ := h
          rw [hfm.2, hm] at hcase
          rcases hcase with h | ⟨j, hj, hjm⟩
          · exact Option.noConfusion h
          · cases hj
            exact Nat.lt_irrefl _ hjm
    have hCch : ∀ rec ∈ (ensureFolderDoc n p db).2.folders, PO (some rec.id) →
        PO rec.parent ∨
        (rec.parent = some (ensureFolderDoc n p db).1 ∧ rec.name ∉ dirNamesOf ch) ∨
        TooShallow rec.parent (some (ensureFolderDoc n p db).1) := by
      intro rec hrec hPOrec
      obtain ⟨t0, ht0, ht0id⟩ := ensureFolderDoc_folders_ext n p db
      rw [ht0, List.mem_append] at hrec
      rcases hrec with hrec | hrec
      · rcases hC rec hrec hPOrec with h | ⟨h1, h2⟩ | h
        · exact Or.inl h
        · refine Or.inr (Or.inr ⟨(ensureFolderDoc n p db).1, rfl, ?_⟩)
          have hopt : p = none ∨ ∃ j, p = some j := by
            cases p
            · exact Or.inl rfl
            · exact Or.inr ⟨_, rfl⟩
          rcases hopt with hpv | ⟨j, hpv⟩
          · exact Or.inl (h1.trans hpv)
          · exact Or.inr ⟨j, h1.trans hpv, hfid_gt j hpv⟩
        · obtain ⟨m, hm, hcase⟩ := h
          refine Or.inr (Or.inr ⟨(ensureFolderDoc n p db).1, rfl, ?_⟩)
          rcases hcase with h | ⟨j, hj, hjm⟩
          · exact Or.inl h
          · exact Or.inr ⟨j, hj, Nat.lt_trans hjm (hfid_gt m hm)⟩
      · have := (ht0id rec hrec).1
        rw [this] at hPOrec
        exact absurd (hPOlt _ hPOrec) (Nat.lt_irrefl _)
    have hstep1 := ih2 hinv1 hpok1 hPOfid
      (fun v hv => Nat.lt_of_lt_of_le (hPOlt v hv) hle1) hCch n' q hq
    obtain ⟨le2, inv2, t1, ht1, ht1id⟩ := syncF_basic _ _ ch _ hinv1 hpok1
    have hCrest : ∀ rec ∈ (syncF (cur ++ "/" ++ n) (some (ensureFolderDoc n p db).1) ch
          (ensureFolderDoc n p db).2).1.folders, PO (some rec.id) →
        PO rec.parent ∨ (rec.parent = p ∧ rec.name ∉ dirNamesOf rest) ∨
        TooShallow rec.parent p := by
      intro rec hrec hPOrec
      rw [ht1, List.mem_append] at hrec
      rcases hrec with hrec | hrec
      · obtain ⟨t0, ht0, ht0id⟩ := ensureFolderDoc_folders_ext n p db
        rw [ht0, List.mem_append] at hrec
        rcases hrec with hrec | hrec
        · rcases hC rec hrec hPOrec with h | ⟨h1, h2⟩ | h
          · exact Or.inl h
          · rw [dirNamesOf_cons_dir] at h2
            exact Or.inr (Or.inl ⟨h1, fun hm => h2 (List.mem_cons_of_mem _ hm)⟩)
          · exact Or.inr (Or.inr h)
        · have := (ht0id rec hrec).1
          rw [this] at hPOrec
          exact absurd (hPOlt _ hPOrec) (Nat.lt_irrefl _)
      · have hge := ht1id rec hrec
        have := Nat.lt_of_lt_of_le (hPOlt _ hPOrec) hle1
        omega
    have hstep2 := ih3 inv2 (pOK_mono hp (Nat.le_trans hle1 le2)) hPOp
      (fun v hv => Nat.lt_of_lt_of_le (hPOlt v hv) (Nat.le_trans hle1 le2))
      hCrest n' q hq
    rw [hstep2, hstep1, ensureFolderDoc_files]

theorem fileNamesOf_cons_file (n : String) (st : Option Nat) (rest : List Entry) :
    fileNamesOf (.file n st :: rest) = n :: fileNamesOf rest := by
  simp [fileNamesOf]

theorem fileNamesOf_cons_dir (n : String) (ch : List Entry) (rest : List Entry) :
    fileNamesOf (.dir n ch :: rest) = fileNamesOf rest := by
  simp [fileNamesOf]

/-- The walk of a listing that contains no file entry named `n` leaves
the `(n, p)`-keyed file records untouched (`p` the walk parent): sibling
files have other names, and subtree upserts use strictly deeper parents. -/
theorem syncF_stable_key (n : String) :
    ∀ (cur : String) (p : Option Nat) (es : List Entry) (db : DB),
      DBInv db → pOK p db → n ∉ fileNamesOf es →
      (syncF cur p es db).1.files.filter (fileKeyMatch n p)
        = db.files.filter (fileKeyMatch n p) := by
  intro cur p es db
  induction cur, p, es, db using syncF.induct with
  | case1 cur p db => intro _ _ _; simp [syncF]
  | case2 cur p m rest db => intro _ _ _; simp [syncF]
  | case3 cur p m rest db sz ih =>
    intro hInv hp hn
    rw [fileNamesOf_cons_file, List.mem_cons] at hn
    push_neg at hn
    simp only [syncF]
    have hle := upsertFile_next_le m p (cur ++ "/" ++ m) sz (extname m) (mimeOf m) db
    rw [ih (upsertFile_DBInv _ _ _ _ _ _ _ hInv) (pOK_mono hp hle) hn.2]
    exact upsertFile_filter_other _ _ _ _ _ _ _ _ _ (fun h => hn.1 h.1.symm)
  | case4 cur p ch rest db ih =>
    intro hInv hp hn
    rw [fileNamesOf_cons_dir] at hn
    simp only [syncF, if_pos]
    exact ih hInv hp hn
  | case5 cur p m ch rest db hm r s ih1 ih2 ih3 =>
    intro hInv hp hn
    rw [fileNamesOf_cons_dir] at hn
    simp only [syncF, if_neg hm]
    have hfid_gt := ensureFolderDoc_parent_lt m p db hInv hp
    have hinv1 := ensureFolderDoc_DBInv m p db hInv hp
    have hpok1 : pOK (some (ensureFolderDoc m p db).1) (ensureFolderDoc m p db).2 :=
      ensureFolderDoc_id_lt m p db hInv
    have hle1 := ensureFolderDoc_next_le m p db
    have hsub := syncF_filter_stable (fun q => q = p)
      (cur ++ "/" ++ m) (some (ensureFolderDoc m p db).1) ch (ensureFolderDoc m p db).2
      hinv1 hpok1
      (by
        intro heq
        have hopt : p = none ∨ ∃ j, p = some j := by
          cases p
          · exact Or.inl rfl
          · exact Or.inr ⟨_, rfl⟩
        rcases hopt with hpv | ⟨j, hpv⟩
        · exact Option.noConfusion (heq.trans hpv)
        · have hj := hfid_gt j hpv
          have := Option.some.inj (heq.trans hpv)
          omega)
      (by
        intro v hv
        have hp' := hp
        rw [← hv] at hp'
        have h2 : v < db.next := hp'
        exact Nat.lt_of_lt_of_le h2 hle1)
      (by
        intro rec hrec hPOrec
        refine Or.inr (Or.inr ⟨(ensureFolderDoc m p db).1, rfl, ?_⟩)
        have hparlt := hinv1.2.1 rec hrec
        have hidlt := hfid_gt rec.id hPOrec.symm
        cases hpar : rec.parent with
        | none => exact Or.inl rfl
        | some j2 =>
          refine Or.inr ⟨j2, rfl, ?_⟩
          rw [hpar] at hparlt
          exact Nat.lt_trans hparlt hidlt)
      n p rfl
    obtain ⟨le2, inv2, _, _, _⟩ := syncF_basic _ _ ch _ hinv1 hpok1
    rw [ih3 inv2 (pOK_mono hp (Nat.le_trans hle1 le2)) hn, hsub, ensureFolderDoc_files]

/-- The index covers the listing at walk position `(cur, p)`: every
healthy file entry has a first-matching record carrying exactly the
values the walk would write, and every subdirectory has a folder record
whose id covers its children recursively. -/
inductive Covers : String → Option Nat → DB → List Entry → Prop where
  | nil {cur : String} {p : Option Nat} {db : DB} : Covers cur p db []
  | file {cur : String} {p : Option Nat} {db : DB} {n : String} {sz : Nat}
      {rest : List Entry} {r : FileRec} :
      findFile n p db = some r →
      r.storageKey = cur ++ "/" ++ n → r.size = sz → r.ext = extname n →
      r.mime = mimeOf n →
      Covers cur p db rest → Covers cur p db (.file n (some sz) :: rest)
  | dirSkip {cur : String} {p : Option Nat} {db : DB} {ch rest : List Entry} :
      Covers cur p db rest → Covers cur p db (.dir "backups" ch :: rest)
  | dir {cur : String} {p : Option Nat} {db : DB} {n : String} {ch rest : List Entry}
      {f : FolderRec} : n ≠ "backups" →
      findFolder n p db = some f →
      Covers (cur ++ "/" ++ n) (some f.id) db ch →
      Covers cur p db rest → Covers cur p db (.dir n ch :: rest)

theorem upsertFile_noop {n : String} {p : Option Nat} {sk : String} {sz : Nat}
    {e m : String} {db : DB} {r : FileRec} (hfind : findFile n p db = some r)
    (h1 : r.storageKey = sk) (h2 : r.size = sz) (h3 : r.ext = e) (h4 : r.mime = m) :
    upsertFile n p sk sz e m db = db := by
  have hmem := List.mem_of_find?_eq_some hfind
  have hmatch := List.find?_some hfind
  unfold upsertFile
  rw [if_pos (List.any_eq_true.mpr ⟨r, hmem, hmatch⟩)]
  have hself : updateFirst (fileKeyMatch n p) (setSyncFields sk sz e m p) db.files
      = db.files := by
    apply updateFirst_eq_self hfind
    simp only [fileKeyMatch, Bool.and_eq_true, beq_iff_eq] at hmatch
    cases r
    simp only [setSyncFields] at *
    subst h1 h2 h3 h4
    simp_all
  rw [hself]

/-- A second walk over a covered listing performs no index mutation at
all and reports success. -/
theorem covers_run_id : ∀ {cur : String} {p : Option Nat} {db : DB} {es : List Entry},
    Covers cur p db es → syncF cur p es db = (db, true) := by
  intro cur p db es hcov
  induction hcov with
  | nil => simp [syncF]
  | @file cur p db n sz rest r hfind h1 h2 h3 h4 _ ih =>
    simp only [syncF]
    rw [upsertFile_noop hfind h1 h2 h3 h4]
    exact ih
  | dirSkip _ ih =>
    simp only [syncF, if_pos]
    exact ih
  | @dir cur p db n ch rest f hn hfind _ _ ih1 ih2 =>
    have he : ensureFolderDoc n p db = (f.id, db) := by
      unfold ensureFolderDoc
      rw [hfind]
    simp only [syncF, if_neg hn, he, ih1, ih2]

/-- Covering survives later index growth that leaves the folder list a
prefix and every file key under a protected id untouched. -/
theorem Covers_ext (P : Nat → Prop) (db' : DB) :
    ∀ {cur : String} {q : Option Nat} {db : DB} {es : List Entry},
      Covers cur q db es →
      (∃ t, db'.folders = db.folders ++ t) →
      (∀ (n' : String) (v : Nat), P v →
        db'.files.filter (fileKeyMatch n' (some v))
          = db.files.filter (fileKeyMatch n' (some v))) →
      (∀ rec ∈ db.folders, ∀ v, rec.parent = some v → P v → P rec.id) →
      (∃ v, q = some v ∧ P v) → Covers cur q db' es := by
  intro cur q db es hcov
  induction hcov with
  | nil => intro _ _ _ _; exact Covers.nil
  | @file cur p db n sz rest r hfind h1 h2 h3 h4 _ ih =>
    intro hfol hfile0 hclose hq
    obtain ⟨v, hv, hPv⟩ := hq
    refine Covers.file ?_ h1 h2 h3 h4 (ih hfol hfile0 hclose ⟨v, hv, hPv⟩)
    subst hv
    unfold findFile at hfind ⊢
    rw [find?_eq_head_filter, hfile0 n v hPv, ← find?_eq_head_filter]
    exact hfind
  | dirSkip _ ih =>
    intro hfol hfile0 hclose hq
    exact Covers.dirSkip (ih hfol hfile0 hclose hq)
  | @dir cur p db n ch rest f hn hfind hch _ ih1 ih2 =>
    intro hfol hfile0 hclose hq
    obtain ⟨v, hv, hPv⟩ := hq
    have hfm := List.find?_some hfind
    simp only [folderKeyMatch, Bool.and_eq_true, beq_iff_eq] at hfm
    have hPf : P f.id :=
      hclose f (List.mem_of_find?_eq_some hfind) v (hfm.2.trans hv) hPv
    refine Covers.dir hn ?_ (ih1 hfol hfile0 hclose ⟨f.id, rfl, hPf⟩)
      (ih2 hfol hfile0 hclose ⟨v, hv, hPv⟩)
    obtain ⟨t, ht⟩ := hfol
    unfold findFolder at hfind ⊢
    rw [ht]
    exact find?_append_some hfind

theorem WfT_names {es : List Entry} (h : WfT es) : (namesOf es).Nodup := by
  cases h with | mk h1 _ => exact h1

theorem WfT_child {es : List Entry} {n : String} {ch : List Entry} (h : WfT es)
    (hm : Entry.dir n ch ∈ es) : WfT ch := by
  cases h with | mk _ h2 => exact h2 n ch hm

theorem AllOk_file {es : List Entry} {n : String} {st : Option Nat} (h : AllOk es)
    (hm : Entry.file n st ∈ es) : st.isSome := by
  cases h with | mk h1 _ => exact h1 n st hm

theorem AllOk_child {es : List Entry} {n : String} {ch : List Entry} (h : AllOk es)
    (hm : Entry.dir n ch ∈ es) : AllOk ch := by
  cases h with | mk _ h2 => exact h2 n ch hm

theorem InTree_inv {db : DB} {root v : Nat} (h : InTree db root v) :
    v = root ∨ ∃ rec ∈ db.folders, rec.id = v ∧
      ∃ w, rec.parent = some w ∧ InTree db root w := by
  cases h with
  | base => exact Or.inl rfl
  | step hmem hid hpar hw => exact Or.inr ⟨_, hmem, hid, _, hpar, hw⟩

/-- After one walk over a healthy, well-formed listing, the index covers
the listing. -/
theorem syncF_covers : ∀ (cur : String) (p : Option Nat) (es : List Entry) (db : DB),
    DBInv db → pOK p db → WfT es → AllOk es →
    Covers cur p (syncF cur p es db).1 es := by
  intro cur p es db
  induction cur, p, es, db using syncF.induct with
  | case1 cur p db =>
    intro _ _ _ _
    simp only [syncF]
    exact Covers.nil
  | case2 cur p n rest db =>
    intro _ _ _ hok
    exact absurd (AllOk_file hok (List.mem_cons_self _ _)) (by simp)
  | case3 cur p n rest db sz ih =>
    intro hInv hp hwf hok
    simp only [syncF]
    have hInv1 := upsertFile_DBInv n p (cur ++ "/" ++ n) sz (extname n) (mimeOf n) db hInv
    have hle := upsertFile_next_le n p (cur ++ "/" ++ n) sz (extname n) (mimeOf n) db
    have hcrest := ih hInv1 (pOK_mono hp hle) (WfT_tail hwf) (AllOk_tail hok)
    obtain ⟨r, hr, hrn, hrp, hrs, hrsz, hre, hrm⟩ :=
      findFile_upsert_self n p (cur ++ "/" ++ n) sz (extname n) (mimeOf n) db
    have hnotin : n ∉ fileNamesOf rest := by
      have hnd := WfT_names hwf
      simp only [namesOf, List.map_cons] at hnd
      exact fun hm => (List.nodup_cons.mp hnd).1 (mem_namesOf_of_fileNames hm)
    have hstab := syncF_stable_key n cur p rest _ hInv1 (pOK_mono hp hle) hnotin
    have hfind2 : findFile n p (syncF cur p rest
        (upsertFile n p (cur ++ "/" ++ n) sz (extname n) (mimeOf n) db)).1 = some r := by
      unfold findFile at hr ⊢
      rw [find?_eq_head_filter, hstab, ← find?_eq_head_filter]
      exact hr
    exact Covers.file hfind2 hrs hrsz hre hrm hcrest
  | case4 cur p ch rest db ih =>
    intro hInv hp hwf hok
    simp only [syncF, if_pos]
    exact Covers.dirSkip (ih hInv hp (WfT_tail hwf) (AllOk_tail hok))
  | case5 cur p n ch rest db hn r s ih1 ih2 ih3 =>
    intro hInv hp hwf hok
    simp only [syncF, if_neg hn]
    have hfid_gt := ensureFolderDoc_parent_lt n p db hInv hp
    have hinv1 := ensureFolderDoc_DBInv n p db hInv hp
    have hpok1 : pOK (some (ensureFolderDoc n p db).1) (ensureFolderDoc n p db).2 :=
      ensureFolderDoc_id_lt n p db hInv
    have hle1 := ensureFolderDoc_next_le n p db
    have hwfch : WfT ch := WfT_child hwf (List.mem_cons_self _ _)
    have hokch : AllOk ch := AllOk_child hok (List.mem_cons_self _ _)
    have hcov2 := ih2 hinv1 hpok1 hwfch hokch
    obtain ⟨le2, inv2, t1, ht1, ht1id⟩ := syncF_basic _ _ ch _ hinv1 hpok1
    have hpok2 : pOK p (syncF (cur ++ "/" ++ n) (some (ensureFolderDoc n p db).1) ch
        (ensureFolderDoc n p db).2).1 := pOK_mono hp (Nat.le_trans hle1 le2)
    obtain ⟨le3, inv3, t2, ht2, ht2id⟩ := syncF_basic cur p rest _ inv2 hpok2
    obtain ⟨f, hff, hfid, hfn, hfp⟩ := ensureFolderDoc_findFolder n p db
    have hff2 : findFolder n p (syncF (cur ++ "/" ++ n)
        (some (ensureFolderDoc n p db).1) ch (ensureFolderDoc n p db).2).1 = some f := by
      unfold findFolder at hff ⊢
      rw [ht1]
      exact find?_append_some hff
    have hff3 : findFolder n p (syncF cur p rest (syncF (cur ++ "/" ++ n)
        (some (ensureFolderDoc n p db).1) ch (ensureFolderDoc n p db).2).1).1 = some f := by
      unfold findFolder at hff2 ⊢
      rw [ht2]
      exact find?_append_some hff2
    have hnotin : n ∉ namesOf rest := by
      have hnd := WfT_names hwf
      simp only [namesOf, List.map_cons] at hnd
      exact (List.nodup_cons.mp hnd).1
    have hfid_lt2 : (ensureFolderDoc n p db).1 < (syncF (cur ++ "/" ++ n)
        (some (ensureFolderDoc n p db).1) ch (ensureFolderDoc n p db).2).1.next :=
      Nat.lt_of_lt_of_le hpok1 le2
    have hPOp : ¬ ∃ v, p = some v ∧ InTree (syncF (cur ++ "/" ++ n)
        (some (ensureFolderDoc n p db).1) ch (ensureFolderDoc n p db).2).1 f.id v := by
      rintro ⟨v, hv, hIT⟩
      have hge := InTree_ge inv2.2.1 hIT
      have hlt := hfid_gt v hv
      rw [← hfid] at hlt
      omega
    have hc2 : ∀ v, (∃ w, (some v : Option Nat) = some w ∧
        InTree (syncF (cur ++ "/" ++ n) (some (ensureFolderDoc n p db).1) ch
          (ensureFolderDoc n p db).2).1 f.id w) →
        v < (syncF (cur ++ "/" ++ n) (some (ensureFolderDoc n p db).1) ch
          (ensureFolderDoc n p db).2).1.next := by
      rintro v ⟨w, hw, hIT⟩
      cases Option.some.inj hw
      rcases InTree_inv hIT with hbase | ⟨rec, hrec, hid, _⟩
      · rw [hbase, hfid]
        exact hfid_lt2
      · rw [← hid]
        exact inv2.1 rec hrec
    have hC : ∀ rec ∈ (syncF (cur ++ "/" ++ n) (some (ensureFolderDoc n p db).1) ch
          (ensureFolderDoc n p db).2).1.folders,
        (∃ v, (some rec.id : Option Nat) = some v ∧
          InTree (syncF (cur ++ "/" ++ n) (some (ensureFolderDoc n p db).1) ch
            (ensureFolderDoc n p db).2).1 f.id v) →
        (∃ v, rec.parent = some v ∧
          InTree (syncF (cur ++ "/" ++ n) (some (ensureFolderDoc n p db).1) ch
            (ensureFolderDoc n p db).2).1 f.id v) ∨
        (rec.parent = p ∧ rec.name ∉ dirNamesOf rest) ∨
        TooShallow rec.parent p := by
      rintro rec hrec ⟨v, hv, hIT⟩
      cases Option.some.inj hv
      rcases InTree_inv hIT with hbase | ⟨rec', hrec', hid', w, hpar', hIT'⟩
      · have hrecf : rec = f :=
          List.inj_on_of_nodup_map inv2.2.2 hrec
            (List.mem_of_find?_eq_some hff2) (by rw [hbase])
        refine Or.inr (Or.inl ⟨hrecf ▸ hfp, ?_⟩)
        rw [hrecf, hfn]
        exact fun hm => hnotin (mem_namesOf_of_dirNames hm)
      · have hreceq : rec' = rec :=
          List.inj_on_of_nodup_map inv2.2.2 hrec' hrec hid'
        exact Or.inl ⟨w, hreceq ▸ hpar', hIT'⟩
    have hstabP := syncF_filter_stable
      (fun qq => ∃ v, qq = some v ∧ InTree (syncF (cur ++ "/" ++ n)
        (some (ensureFolderDoc n p db).1) ch (ensureFolderDoc n p db).2).1 f.id v)
      cur p rest _ inv2 hpok2 hPOp hc2 hC
    have hcov2' := Covers_ext
      (InTree (syncF (cur ++ "/" ++ n) (some (ensureFolderDoc n p db).1) ch
        (ensureFolderDoc n p db).2).1 f.id)
      (syncF cur p rest (syncF (cur ++ "/" ++ n) (some (ensureFolderDoc n p db).1) ch
        (ensureFolderDoc n p db).2).1).1
      hcov2 ⟨t2, ht2⟩
      (fun n' v hv => hstabP n' (some v) ⟨v, rfl, hv⟩)
      (fun rec hrec v hpar hIT => InTree.step hrec rfl hpar hIT)
      ⟨f.id, by rw [hfid], InTree.base⟩
    have hcov3 := ih3 inv2 hpok2 (WfT_tail hwf) (AllOk_tail hok)
    refine Covers.dir hn hff3 ?_ hcov3
    have hq2 : (some f.id : Option Nat) = some (ensureFolderDoc n p db).1 :=
      congrArg some hfid
    rw [hq2]
    exact hcov2'

/-- C3: `syncToDB` is idempotent: on an unchanged, healthy disk tree
(every stat succeeds, sibling names distinct) a second run performs no
index mutation at all — it creates no record and leaves every stored
field with the value the first run gave it — and reports success. -/
theorem syncTree_idempotent (cur : String) (p : Option Nat) (es : List Entry) (db : DB)
    (hInv : DBInv db) (hp : pOK p db) (hwf : WfT es) (hok : AllOk es) :
    syncF cur p es (syncF cur p es db).1 = ((syncF cur p es db).1, true) :=
  covers_run_id (syncF_covers cur p es db hInv hp hwf hok)

/-- The two-level demonstration tree of the spec's scenario. -/
def demoTree : List Entry :=
  [Entry.dir "docs" [Entry.file "readme.txt" (some 10),
     Entry.dir "sub" [Entry.file "notes.txt" (some 5)]],
   Entry.file "a.txt" (some 3)]

theorem demoTree_wf : WfT demoTree := by
  refine WfT.mk (by decide) ?_
  intro n ch h
  simp only [demoTree, List.mem_cons, List.not_mem_nil, or_false] at h
  rcases h with h | h
  · obtain ⟨rfl, rfl⟩ := Entry.dir.injEq .. |>.mp h
    refine WfT.mk (by decide) ?_
    intro n ch h
    simp only [List.mem_cons, List.not_mem_nil, or_false] at h
    rcases h with h | h
    · exact absurd h (by simp)
    · obtain ⟨rfl, rfl⟩ := Entry.dir.injEq .. |>.mp h
      exact WfT.mk (by decide) (fun n ch h => by simp at h)
  · exact absurd h (by simp)

theorem demoTree_allOk : AllOk demoTree := by
  refine AllOk.mk ?_ ?_
  · intro n st h
    simp only [demoTree, List.mem_cons, List.not_mem_nil, or_false] at h
    rcases h with h | h
    · exact absurd h (by simp)
    · obtain ⟨rfl, rfl⟩ := Entry.file.injEq .. |>.mp h
      rfl
  · intro n ch h
    simp only [demoTree, List.mem_cons, List.not_mem_nil, or_false] at h
    rcases h with h | h
    · obtain ⟨rfl, rfl⟩ := Entry.dir.injEq .. |>.mp h
      refine AllOk.mk ?_ ?_
      · intro n st h
        simp only [List.mem_cons, List.not_mem_nil, or_false] at h
        rcases h with h | h
        · obtain ⟨rfl, rfl⟩ := Entry.file.injEq .. |>.mp h
          rfl
        · exact absurd h (by simp)
      · intro n ch h
        simp only [List.mem_cons, List.not_mem_nil, or_false] at h
        rcases h with h | h
        · exact absurd h (by simp)
        · obtain ⟨rfl, rfl⟩ := Entry.dir.injEq .. |>.mp h
          exact AllOk.mk (fun n st h => by
              simp only [List.mem_cons, List.not_mem_nil, or_false] at h
              obtain ⟨rfl, rfl⟩ := Entry.file.injEq .. |>.mp h
              rfl)
            (fun n ch h => by simp at h)
    · exact absurd h (by simp)

theorem emptyDB_inv : DBInv emptyDB :=
  ⟨by simp [emptyDB], by simp [emptyDB], by simp [emptyDB]⟩

/-- Witness for C3 on the spec's two-level scenario tree. -/
theorem syncTree_idempotent_wit :
    (DBInv emptyDB ∧ pOK none emptyDB ∧ WfT demoTree ∧ AllOk demoTree) ∧
    syncF "/base" none demoTree (syncF "/base" none demoTree emptyDB).1
      = ((syncF "/base" none demoTree emptyDB).1, true) :=
  ⟨⟨emptyDB_inv, trivial, demoTree_wf, demoTree_allOk⟩,
   syncTree_idempotent "/base" none demoTree emptyDB emptyDB_inv trivial
     demoTree_wf demoTree_allOk⟩

/-- C7 counterexample: in a directory listing `[bad, good]` where the
stat of `bad` throws, the walk does not continue with the sibling:
`good` is never indexed — the thrown error is caught only by this
invocation's `safeExecute` wrapper, which aborts the rest of the loop. -/
theorem sync_partial_failure_cex :
    syncF "/b" none [Entry.file "bad" none, Entry.file "good" (some 3)] emptyDB
      = (emptyDB, false) ∧
    findFile "good" none
      (syncF "/b" none [Entry.file "bad" none, Entry.file "good" (some 3)] emptyDB).1
      = none := by
  constructor
  · simp [syncF]
  · simp [syncF, findFile, emptyDB]

/-- C7 amended: a stat failure on a file entry aborts the remaining
entries of its own directory listing — the state is returned as it was
at the failure, unprocessed siblings included — but a failure anywhere
inside a subdirectory entry is swallowed by that recursive invocation's
own wrapper, so the parent's walk continues: whatever happened inside
`ch`, every healthy sibling entry in `rest` is still fully synced. -/
theorem sync_partial_failure_scope (cur : String) (p : Option Nat) (n : String)
    (ch rest : List Entry) (db : DB) (hn : n ≠ "backups")
    (hInv : DBInv db) (hp : pOK p db) (hwf : WfT rest) (hok : AllOk rest) :
    (∀ (m : String) (rest2 : List Entry) (db2 : DB),
        syncF cur p (Entry.file m none :: rest2) db2 = (db2, false)) ∧
    Covers cur p (syncF cur p (Entry.dir n ch :: rest) db).1 rest := by
  constructor
  · intro m rest2 db2
    simp [syncF]
  · simp only [syncF, if_neg hn]
    have hinv1 := ensureFolderDoc_DBInv n p db hInv hp
    have hpok1 : pOK (some (ensureFolderDoc n p db).1) (ensureFolderDoc n p db).2 :=
      ensureFolderDoc_id_lt n p db hInv
    obtain ⟨le2, inv2, _, _, _⟩ := syncF_basic _ _ ch _ hinv1 hpok1
    exact syncF_covers cur p rest _ inv2
      (pOK_mono hp (Nat.le_trans (ensureFolderDoc_next_le n p db) le2)) hwf hok

/-- Witness for the C7 amended theorem: a subtree with a failing stat
does not stop its sibling from being synced. -/
theorem sync_partial_failure_scope_wit :
    (("d" : String) ≠ "backups" ∧ DBInv emptyDB ∧ pOK none emptyDB ∧
      WfT [Entry.file "good.txt" (some 3)] ∧ AllOk [Entry.file "good.txt" (some 3)]) ∧
    ((∀ (m : String) (rest2 : List Entry) (db2 : DB),
        syncF "/b" none (Entry.file m none :: rest2) db2 = (db2, false)) ∧
     Covers "/b" none
       (syncF "/b" none
         (Entry.dir "d" [Entry.file "bad" none] :: [Entry.file "good.txt" (some 3)])
         emptyDB).1
       [Entry.file "good.txt" (some 3)]) :=
  ⟨⟨by decide, emptyDB_inv, trivial,
    WfT.mk (by decide) (fun n ch h => by simp at h),
    AllOk.mk (fun n st h => by
        simp only [List.mem_cons, List.not_mem_nil, or_false] at h
        obtain ⟨rfl, rfl⟩ := Entry.file.injEq .. |>.mp h
        rfl)
      (fun n ch h => by simp at h)⟩,
   sync_partial_failure_scope "/b" none "d" [Entry.file "bad" none]
     [Entry.file "good.txt" (some 3)] emptyDB (by decide) emptyDB_inv trivial
     (WfT.mk (by decide) (fun n ch h => by simp at h))
     (AllOk.mk (fun n st h => by
         simp only [List.mem_cons, List.not_mem_nil, or_false] at h
         obtain ⟨rfl, rfl⟩ := Entry.file.injEq .. |>.mp h
         rfl)
       (fun n ch h => by simp at h))⟩

/-- Witness for C1 at concrete IVs and content. -/
theorem encrypt_decrypt_roundtrip_wit :
    ((List.replicate 16 0 : List Nat).length = 16 ∧
     (1 :: List.replicate 15 0 : List Nat).length = 16 ∧
     (List.replicate 16 0 : List Nat) ≠ 1 :: List.replicate 15 0) ∧
    (decryptBytes (fun _ i => i) (encryptBytes (fun _ i => i)
        (List.replicate 16 0) [1, 2, 3]) = [1, 2, 3] ∧
     encryptBytes (fun _ i => i) (List.replicate 16 0) [1, 2, 3]
       ≠ encryptBytes (fun _ i => i) (1 :: List.replicate 15 0) [9]) :=
  ⟨⟨by decide, by decide, by decide⟩,
   encrypt_decrypt_roundtrip (fun _ i => i) (List.replicate 16 0)
     (1 :: List.replicate 15 0) [1, 2, 3] [9] (by decide) (by decide) (by decide)⟩
